import Mathlib

/-!
Verification of the aikido-backup change-detection and journal engine.

The Go sources (backup.go, restore.go, main.go) are embedded shallowly:

* `FileEntry` and `Chunk` mirror the structs in backup.go; machine types are
  abstracted (os.FileMode as `Nat`, time.Time as `Int`, []byte as `List Nat`).
* Go maps (`fileData`, `deletedFiles`, `snapshot`, `current`) are modelled as
  association lists with insert-or-replace and erase operations; map iteration
  order in Go is unspecified, so any list order is a faithful refinement.
* The restore fold (restore.go lines 30-49), the materialization loop
  (restore.go lines 51-65), the greedy packer (backup.go lines 26-55) and the
  differ (main.go detectChanges) become pure functions; filesystem reads that
  can fail are modelled with `Option`, and the restore entry point returns
  `Except` to reflect its error contract.
* The segment byte encoding (Go's encoding/gob, standard library, not part of
  the repository sources) is modelled from the spec as a self-describing,
  self-delimiting byte serialization; see `encodeNat` below.
-/

/-- One file's state at one point in time (backup.go, type `FileEntry`):
Path, Mode (os.FileMode as `Nat`), ModTime (as `Int`), Size, Content (byte
list), Deleted (tombstone flag). -/
structure FileEntry where
  path : String
  mode : Nat
  modTime : Int
  size : Int
  content : List Nat
  deleted : Bool
deriving DecidableEq

/-- One segment's payload: an ordered list of change records (backup.go,
type `Chunk`). -/
structure Chunk where
  entries : List FileEntry
deriving DecidableEq

/-- Association-list lookup, modelling Go map indexing `m[k]`. -/
def lookupKey {α : Type} (k : String) : List (String × α) → Option α
  | [] => none
  | kv :: rest => if kv.1 = k then some kv.2 else lookupKey k rest

/-- Association-list key removal, modelling Go `delete(m, k)`. -/
def eraseKey {α : Type} (k : String) : List (String × α) → List (String × α)
  | [] => []
  | kv :: rest => if kv.1 = k then eraseKey k rest else kv :: eraseKey k rest

/-- Association-list insert-or-replace, modelling Go map assignment
`m[k] = v`. -/
def insertKey {α : Type} (k : String) (v : α) (m : List (String × α)) :
    List (String × α) :=
  eraseKey k m ++ [(k, v)]

/-- String-set element removal, modelling Go `delete(set, k)` on a
`map[string]bool` used as a set. -/
def eraseStr (k : String) : List String → List String
  | [] => []
  | s :: rest => if s = k then eraseStr k rest else s :: eraseStr k rest

/-- String-set insertion, modelling Go `set[k] = true`. -/
def insertStr (k : String) (l : List String) : List String :=
  eraseStr k l ++ [k]

/-- The replay state built by restore (restore.go lines 30-31): the live-record
table `fileData` and the tombstone set `deletedFiles`. -/
structure RestoreState where
  fileData : List (String × FileEntry)
  deletedFiles : List String
deriving DecidableEq

/-- Both tables start empty (restore.go lines 30-31). -/
def initState : RestoreState :=
  { fileData := [], deletedFiles := [] }

/-- Processing one record (restore.go lines 40-48): a tombstone marks the path
deleted and discards any live record; a live record clears any tombstone and
becomes the path's current record. -/
def applyEntry (s : RestoreState) (e : FileEntry) : RestoreState :=
  if e.deleted then
    { fileData := eraseKey e.path s.fileData
      deletedFiles := insertStr e.path s.deletedFiles }
  else
    { fileData := insertKey e.path e s.fileData
      deletedFiles := eraseStr e.path s.deletedFiles }

/-- Folding the records of one segment, in order (restore.go line 40). -/
def foldEntries (es : List FileEntry) (s : RestoreState) : RestoreState :=
  es.foldl applyEntry s

/-- Folding a journal (restore.go lines 33-49): each segment either decodes to
a chunk (`some c`) whose records are folded in order, or fails to decode
(`none`) and is skipped (`continue` after the readChunk error). -/
def foldSegments (segs : List (Option Chunk)) (s : RestoreState) : RestoreState :=
  segs.foldl
    (fun acc seg =>
      match seg with
      | none => acc
      | some c => foldEntries c.entries acc)
    s

/-- What materialization writes for one live record (restore.go lines 58-62):
content bytes, permission bits, modification time. -/
structure WrittenFile where
  content : List Nat
  mode : Nat
  modTime : Int
deriving DecidableEq

/-- The written image of a live record. -/
def writtenOf (e : FileEntry) : WrittenFile :=
  { content := e.content, mode := e.mode, modTime := e.modTime }

/-- The materialization loop (restore.go lines 51-65): the target directory is
a partial map from relative path to file data; each live entry is written at
its `Path`, overwriting whatever was there; nothing else is touched. -/
def writeFiles (entries : List (String × FileEntry))
    (target : String → Option WrittenFile) : String → Option WrittenFile :=
  entries.foldl
    (fun t kv => fun p => if kv.2.path = p then some (writtenOf kv.2) else t p)
    target

/-- The fatal error restore can raise in this model (restore.go line 25:
"no backup chunks found"); IO failures are outside the embedding. -/
inductive RestoreError where
  | notFound
deriving DecidableEq

/-- The restore entry point (restore.go lines 12-69) over an already-listed,
lexicographically sorted journal: `segs` is the per-segment decode outcome of
each listed chunk file (`none` for a segment whose bytes do not parse), and
`target` is the pre-existing content of the restore root. With no segment
files at all it fails with `notFound` (line 24-26); otherwise it folds the
journal and materializes the live table. -/
def restoreRun (segs : List (Option Chunk))
    (target : String → Option WrittenFile) :
    Except RestoreError (String → Option WrittenFile) :=
  if segs.isEmpty then .error .notFound
  else .ok (writeFiles (foldSegments segs initState).fileData target)

/-- The records of the decodable segments of a journal, in journal order. -/
def decodedEntries : List (Option Chunk) → List FileEntry
  | [] => []
  | none :: rest => decodedEntries rest
  | some c :: rest => c.entries ++ decodedEntries rest

/-- The subsequence of records whose path is `p`, in journal order. -/
def recordsFor (p : String) : List FileEntry → List FileEntry
  | [] => []
  | e :: rest => if e.path = p then e :: recordsFor p rest else recordsFor p rest

/-- Last element of a list, if any. -/
def lastRec {α : Type} : List α → Option α
  | [] => none
  | [a] => some a
  | _ :: b :: rest => lastRec (b :: rest)

/-- The spec's description of the fold's outcome for one path (spec section
4.3, last-writer-wins with tombstones): the path is live with exactly its last
record when that record is not a tombstone, and absent otherwise. Stated from
the spec's words, to be compared with the fold from the source. -/
def lastLiveRecord (p : String) (es : List FileEntry) : Option FileEntry :=
  match lastRec (recordsFor p es) with
  | some e => if e.deleted then none else some e
  | none => none

/-- The 5 MiB soft segment limit (backup.go line 24, `chunkSize`). -/
def chunkSize : Nat := 5 * 1024 * 1024

/-- A record's accounted size (backup.go line 33): content length plus 1024
bytes of per-entry overhead. -/
def entrySize (e : FileEntry) : Nat :=
  e.content.length + 1024

/-- The greedy packing loop of createBackup (backup.go lines 32-52): `cur` is
the current segment's records and `size` its accumulated accounted size.
Before adding a record that would push `size` over the limit, the current
segment is closed — but only when it already holds at least one record.  After
the loop the current segment is written when non-empty (lines 48-52). -/
def packChunks : List FileEntry → List FileEntry → Nat → List Chunk
  | [], cur, _ => if cur = [] then [] else [{ entries := cur }]
  | e :: rest, cur, size =>
    if size + entrySize e > chunkSize ∧ cur ≠ [] then
      { entries := cur } :: packChunks rest [e] (entrySize e)
    else
      packChunks rest (cur ++ [e]) (size + entrySize e)

/-- createBackup (backup.go lines 26-55) as the list of segments it writes, in
sequence order: segment number `i` of the result is written with sequence
number `i` (chunkNum starts at 0 and is incremented once per written
segment). -/
def createBackup (entries : List FileEntry) : List Chunk :=
  packChunks entries [] 0

/-- One file of the watched tree as the walk observes it (main.go lines
101-142): its content hash, stat metadata and content.  The differ model takes
the watched tree as a list of walked paths; a path mapped to `none` is one
whose visit fails (unreadable entry, vanished file), which aborts the whole
walk. -/
structure FsFile where
  hash : String
  mode : Nat
  modTime : Int
  size : Int
  content : List Nat
deriving DecidableEq

/-- The change record emitted for a new or modified file (main.go lines
131-138). -/
def changeEntry (p : String) (f : FsFile) : FileEntry :=
  { path := p, mode := f.mode, modTime := f.modTime, size := f.size
    content := f.content, deleted := false }

/-- The tombstone record emitted for a vanished path (main.go lines 150-153):
only Path and Deleted are set, the other fields are zero values. -/
def deleteEntry (p : String) : FileEntry :=
  { path := p, mode := 0, modTime := 0, size := 0, content := [], deleted := true }

/-- The walk of detectChanges (main.go lines 101-142): visits the tree in
order, building the `current` path-to-hash table and the in-walk change list; a
file it cannot visit makes the whole walk fail (the callback's error aborts
WalkDir). A file is changed when its path is absent from the snapshot or its
hash differs. -/
def walkFs (snapshot : List (String × String)) :
    List (String × Option FsFile) →
    Option (List (String × String) × List FileEntry)
  | [] => some ([], [])
  | (_, none) :: _ => none
  | (p, some f) :: rest =>
    match walkFs snapshot rest with
    | none => none
    | some (current, changes) =>
      let changed : Bool :=
        match lookupKey p snapshot with
        | none => true
        | some h => h != f.hash
      some ((p, f.hash) :: current,
        (if changed then [changeEntry p f] else []) ++ changes)

/-- The path-to-hash table of a fully readable tree: what `current` holds after
a successful walk. -/
def mapHash : List (String × Option FsFile) → List (String × String)
  | [] => []
  | (_, none) :: rest => mapHash rest
  | (p, some f) :: rest => (p, f.hash) :: mapHash rest

/-- detectChanges (main.go lines 97-165).  On a walk error it returns no
changes and the snapshot untouched (line 144-146 returns before any snapshot
mutation).  On success it appends a tombstone for every snapshot path absent
from `current` (lines 148-155), and the snapshot is replaced by `current`
(lines 157-162: maps.Copy followed by deletion of stale keys leaves exactly
the entries of `current`).  The pair returned is (change list or `none` on
error, snapshot after the call). -/
def detectChanges (watchFs : List (String × Option FsFile))
    (snapshot : List (String × String)) :
    Option (List FileEntry) × List (String × String) :=
  match walkFs snapshot watchFs with
  | none => (none, snapshot)
  | some (current, walkChanges) =>
    (some (walkChanges ++
        (snapshot.filter (fun kv => (lookupKey kv.1 current).isNone)).map
          (fun kv => deleteEntry kv.1)),
      current)

/-- Modelled from the spec: the segment byte encoding.  The repository encodes
segments with Go's encoding/gob (standard library, not among the sources);
spec section 6 requires only "a self-describing binary serialization of an
ordered list of ChangeRecord-equivalent structures" that "must round-trip
exactly".  We model it as a self-delimiting byte encoding; a natural number is
written as a run of 1-bytes closed by a 0-byte. -/
def encodeNat (n : Nat) : List Nat :=
  List.replicate n 1 ++ [0]

/-- Decoder for `encodeNat`: consumes one encoded number, returns it with the
remaining bytes. -/
def decodeNat : List Nat → Option (Nat × List Nat)
  | 0 :: rest => some (0, rest)
  | 1 :: rest =>
    match decodeNat rest with
    | some (n, r) => some (n + 1, r)
    | none => none
  | _ => none

/-- Modelled from the spec: integer field encoding (sign byte, then
magnitude). -/
def encodeInt : Int → List Nat
  | .ofNat n => 0 :: encodeNat n
  | .negSucc n => 1 :: encodeNat n

/-- Decoder for `encodeInt`. -/
def decodeInt : List Nat → Option (Int × List Nat)
  | 0 :: rest => (decodeNat rest).map (fun nr => (Int.ofNat nr.1, nr.2))
  | 1 :: rest => (decodeNat rest).map (fun nr => (Int.negSucc nr.1, nr.2))
  | _ => none

/-- Modelled from the spec: boolean field encoding. -/
def encodeBool : Bool → List Nat
  | false => [0]
  | true => [1]

/-- Decoder for `encodeBool`. -/
def decodeBool : List Nat → Option (Bool × List Nat)
  | 0 :: rest => some (false, rest)
  | 1 :: rest => some (true, rest)
  | _ => none

/-- Concatenated encodings of a list of numbers. -/
def encodeNats : List Nat → List Nat
  | [] => []
  | n :: rest => encodeNat n ++ encodeNats rest

/-- Decode exactly `count` numbers. -/
def decodeNats : Nat → List Nat → Option (List Nat × List Nat)
  | 0, bytes => some ([], bytes)
  | count + 1, bytes =>
    match decodeNat bytes with
    | none => none
    | some (n, r) =>
      match decodeNats count r with
      | none => none
      | some (l, r2) => some (n :: l, r2)

/-- Modelled from the spec: length-prefixed byte-sequence field encoding. -/
def encodeNatList (l : List Nat) : List Nat :=
  encodeNat l.length ++ encodeNats l

/-- Decoder for `encodeNatList`. -/
def decodeNatList (bytes : List Nat) : Option (List Nat × List Nat) :=
  match decodeNat bytes with
  | none => none
  | some (count, r) => decodeNats count r

/-- Modelled from the spec: string field encoding via character codes. -/
def encodeString (s : String) : List Nat :=
  encodeNatList (s.data.map Char.toNat)

/-- Decoder for `encodeString`. -/
def decodeString (bytes : List Nat) : Option (String × List Nat) :=
  match decodeNatList bytes with
  | none => none
  | some (l, r) => some (String.mk (l.map Char.ofNat), r)

/-- Modelled from the spec: one serialized ChangeRecord-equivalent structure,
fields in declaration order {path, permission bits, modification time, size,
content, deleted}. -/
def encodeEntry (e : FileEntry) : List Nat :=
  encodeString e.path ++ encodeNat e.mode ++ encodeInt e.modTime ++
    encodeInt e.size ++ encodeNatList e.content ++ encodeBool e.deleted

/-- Decoder for `encodeEntry`. -/
def decodeEntry (bytes : List Nat) : Option (FileEntry × List Nat) :=
  match decodeString bytes with
  | none => none
  | some (p, r1) =>
    match decodeNat r1 with
    | none => none
    | some (mode, r2) =>
      match decodeInt r2 with
      | none => none
      | some (mt, r3) =>
        match decodeInt r3 with
        | none => none
        | some (sz, r4) =>
          match decodeNatList r4 with
          | none => none
          | some (content, r5) =>
            match decodeBool r5 with
            | none => none
            | some (del, r6) =>
              some ({ path := p, mode := mode, modTime := mt, size := sz
                      content := content, deleted := del }, r6)

/-- Concatenated encodings of a record list. -/
def encodeEntries : List FileEntry → List Nat
  | [] => []
  | e :: rest => encodeEntry e ++ encodeEntries rest

/-- Decode exactly `count` records. -/
def decodeEntries : Nat → List Nat → Option (List FileEntry × List Nat)
  | 0, bytes => some ([], bytes)
  | count + 1, bytes =>
    match decodeEntry bytes with
    | none => none
    | some (e, r) =>
      match decodeEntries count r with
      | none => none
      | some (l, r2) => some (e :: l, r2)

/-- The byte image writeChunk produces for one segment (backup.go lines
57-66, with the gob layer modelled from the spec): a length-prefixed ordered
record list. -/
def writeChunkData (c : Chunk) : List Nat :=
  encodeNat c.entries.length ++ encodeEntries c.entries

/-- readChunk's decoding of one segment file (restore.go lines 71-81, gob
layer modelled from the spec): decodes one chunk value from the front of the
bytes, failing when they do not parse. -/
def readChunkData (bytes : List Nat) : Option Chunk :=
  match decodeNat bytes with
  | none => none
  | some (count, r) =>
    match decodeEntries count r with
    | none => none
    | some (l, _) => some { entries := l }

/-- Decimal digits of a number, most significant first, as rendered by Go's
`fmt.Sprintf` with the `%d` verb (variable width, no padding). -/
def decimalDigits (n : Nat) : List Nat :=
  if n < 10 then [n]
  else decimalDigits (n / 10) ++ [n % 10]
termination_by n
decreasing_by
  simp_wf
  exact Nat.div_lt_self (by omega) (by omega)

/-- Decimal digits padded on the left with zeros to width 3, as rendered by
the `%03d` verb (backup.go line 58). -/
def pad3Digits (n : Nat) : List Nat :=
  List.replicate (3 - (decimalDigits n).length) 0 ++ decimalDigits n

/-- Numeric value of a digit list (most significant first). -/
def digitsVal : List Nat → Nat
  | [] => 0
  | d :: ds => d * 10 ^ ds.length + digitsVal ds

/-- The byte string of the segment filename `chunk_<timestamp>_<seq>.dat`
(backup.go line 58): ASCII bytes of `chunk_`, the timestamp in decimal, an
underscore, the sequence number zero-padded to three digits, and `.dat`. -/
def chunkFilename (ts seq : Nat) : List Nat :=
  [99, 104, 117, 110, 107, 95] ++
    (decimalDigits ts).map (fun d => 48 + d) ++ [95] ++
    (pad3Digits seq).map (fun d => 48 + d) ++ [46, 100, 97, 116]

/-- Byte-wise lexicographic strict order on byte strings, as used by Go's
`sort.Strings` (restore.go line 28): a proper prefix sorts first. -/
def lexLt : List Nat → List Nat → Bool
  | _, [] => false
  | [], _ :: _ => true
  | a :: as, b :: bs =>
    if a < b then true
    else if b < a then false
    else lexLt as bs

/-- Chronological order on segments: timestamp first, then sequence number
(spec section 3, Journal ordering key). -/
def chronoLt (t1 s1 t2 s2 : Nat) : Prop :=
  t1 < t2 ∨ (t1 = t2 ∧ s1 < s2)

instance (t1 s1 t2 s2 : Nat) : Decidable (chronoLt t1 s1 t2 s2) := by
  unfold chronoLt
  infer_instance

/-- Example journal records: a file created with initial content. -/
def entryV1 : FileEntry :=
  { path := "file.txt", mode := 420, modTime := 1000, size := 4
    content := [111, 114, 105, 103], deleted := false }

/-- Example journal records: the same path tombstoned. -/
def entryDel : FileEntry :=
  { path := "file.txt", mode := 0, modTime := 0, size := 0
    content := [], deleted := true }

/-- Example journal records: the same path recreated with new content. -/
def entryV2 : FileEntry :=
  { path := "file.txt", mode := 420, modTime := 2000, size := 3
    content := [110, 101, 119], deleted := false }

/-- An empty restore target. -/
def emptyTarget : String → Option WrittenFile :=
  fun _ => none

/-- The example path used by the concrete journal scenarios. -/
def pathFileTxt : String := "file.txt"

/-- A path that never appears in the example journals. -/
def pathOldTxt : String := "old.txt"

/-- A restore target already holding a file at `pathOldTxt`, as left by a
previous partial restore. -/
def targetWithOld : String → Option WrittenFile :=
  fun p => if p = pathOldTxt then some { content := [1, 2], mode := 420, modTime := 5 } else none

/-- Concatenation of the written segments' records, in sequence order. -/
def chunksEntries : List Chunk → List FileEntry
  | [] => []
  | c :: rest => c.entries ++ chunksEntries rest

/-- Total accounted size of a record list, matching the packer's running
`currentSize`. -/
def entriesSize : List FileEntry → Nat
  | [] => 0
  | e :: rest => entrySize e + entriesSize rest

/-- A single record whose accounted size exceeds the 5 MiB soft limit. -/
def bigEntry : FileEntry :=
  { path := "big.bin", mode := 420, modTime := 0, size := 5242880
    content := List.replicate chunkSize 0, deleted := false }

/-- A well-formed demo chunk holding one file creation. -/
def chunkDemo : Chunk :=
  { entries := [entryV1] }

/-- A demo journal: one undecodable segment followed by one well-formed
segment. -/
def segsDemo : List (Option Chunk) :=
  [none, some chunkDemo]

/-- A demo journal that creates `file.txt` and then tombstones it. -/
def segsTombstoneDemo : List (Option Chunk) :=
  [some { entries := [entryV1] }, some { entries := [entryDel] }]

/-- A demo file as the walk observes it. -/
def fsDemoFile : FsFile :=
  { hash := "h1", mode := 420, modTime := 1000, size := 4
    content := [111, 114, 105, 103] }

/-- A demo watched tree holding one readable file. -/
def fsDemo : List (String × Option FsFile) :=
  [(pathFileTxt, some fsDemoFile)]

/-- A demo watched tree whose only entry fails to read. -/
def fsErrDemo : List (String × Option FsFile) :=
  [(pathFileTxt, none)]

/-- A demo prior snapshot. -/
def snapDemo : List (String × String) :=
  [(pathOldTxt, "h0")]

/-! ## Theorems -/

/-! ### Association-list lemmas -/

theorem lookupKey_eraseKey {α : Type} (p k : String) (m : List (String × α)) :
    lookupKey p (eraseKey k m) = if p = k then none else lookupKey p m := by
  induction m with
  | nil => simp [lookupKey, eraseKey]
  | cons kv rest ih =>
    simp only [eraseKey]
    by_cases hk : kv.1 = k
    · rw [if_pos hk, ih]
      by_cases hp : p = k
      · simp [hp]
      · have hkv : ¬ kv.1 = p := by
          rw [hk]
          exact fun h => hp h.symm
        simp [hp, lookupKey, hkv]
    · rw [if_neg hk]
      simp only [lookupKey]
      by_cases hkv : kv.1 = p
      · have hp : ¬ p = k := fun h => hk (hkv.symm ▸ h)
        simp [hkv, hp]
      · simp [hkv, ih]

theorem lookupKey_append {α : Type} (p : String) (m n : List (String × α)) :
    lookupKey p (m ++ n) =
      match lookupKey p m with
      | some v => some v
      | none => lookupKey p n := by
  induction m with
  | nil => simp [lookupKey]
  | cons kv rest ih =>
    by_cases h : kv.1 = p <;> simp [lookupKey, h, ih]

theorem lookupKey_insertKey {α : Type} (p k : String) (v : α)
    (m : List (String × α)) :
    lookupKey p (insertKey k v m) = if p = k then some v else lookupKey p m := by
  rw [insertKey, lookupKey_append, lookupKey_eraseKey]
  by_cases hp : p = k
  · simp [hp, lookupKey]
  · have hk : ¬ k = p := fun h => hp h.symm
    simp only [if_neg hp]
    cases hm : lookupKey p m with
    | some v2 => simp
    | none => simp [lookupKey, hk]

/-! ### The restore fold, record by record -/

theorem lookupKey_applyEntry (s : RestoreState) (e : FileEntry) (p : String) :
    lookupKey p (applyEntry s e).fileData =
      if e.path = p then (if e.deleted then none else some e)
      else lookupKey p s.fileData := by
  by_cases hd : e.deleted
  · have h1 : (applyEntry s e).fileData = eraseKey e.path s.fileData := by
      rw [applyEntry, if_pos hd]
    rw [h1, lookupKey_eraseKey, hd]
    by_cases hp : e.path = p
    · simp [hp]
    · have hp2 : ¬ p = e.path := fun h => hp h.symm
      simp [hp, hp2]
  · have h1 : (applyEntry s e).fileData = insertKey e.path e s.fileData := by
      rw [applyEntry, if_neg hd]
    rw [h1, lookupKey_insertKey]
    by_cases hp : e.path = p
    · simp [hp, hd]
    · have hp2 : ¬ p = e.path := fun h => hp h.symm
      simp [hp, hp2]

theorem lastRec_isSome {α : Type} (a : α) (l : List α) :
    (lastRec (a :: l)).isSome := by
  induction l generalizing a with
  | nil => simp [lastRec]
  | cons b t ih =>
    have h : lastRec (a :: b :: t) = lastRec (b :: t) := rfl
    rw [h]
    exact ih b

theorem lastRec_cons {α : Type} (a : α) (l : List α) :
    lastRec (a :: l) =
      match lastRec l with
      | some b => some b
      | none => some a := by
  cases l with
  | nil => simp [lastRec]
  | cons b t =>
    have h := lastRec_isSome b t
    cases hh : lastRec (b :: t) with
    | none => rw [hh] at h; simp at h
    | some c =>
      have h2 : lastRec (a :: b :: t) = lastRec (b :: t) := rfl
      rw [h2, hh]

theorem foldEntries_cons (e : FileEntry) (rest : List FileEntry)
    (s : RestoreState) :
    foldEntries (e :: rest) s = foldEntries rest (applyEntry s e) := by
  simp [foldEntries]

theorem lookupKey_foldEntries (es : List FileEntry) (s : RestoreState)
    (p : String) :
    lookupKey p (foldEntries es s).fileData =
      match lastRec (recordsFor p es) with
      | some e => if e.deleted then none else some e
      | none => lookupKey p s.fileData := by
  induction es generalizing s with
  | nil => simp [foldEntries, recordsFor, lastRec]
  | cons e rest ih =>
    rw [foldEntries_cons, ih, recordsFor]
    by_cases hp : e.path = p
    · rw [if_pos hp, lastRec_cons]
      cases h : lastRec (recordsFor p rest) with
      | some e2 => simp
      | none => simp [lookupKey_applyEntry, hp]
    · rw [if_neg hp]
      cases h : lastRec (recordsFor p rest) with
      | some e2 => simp
      | none => simp [lookupKey_applyEntry, hp]

/-- C1: the restore fold computes last-writer-wins state with tombstone
semantics: for every record list and path, the fold's live table holds exactly
the path's last record when that record is not a tombstone, and nothing when
the last record is a tombstone or the path never appears; in particular for
the concrete journal create / tombstone / recreate, materializing the full
fold produces the recreated content and materializing the fold truncated after
the tombstone produces no file. -/
theorem restore_fold_last_writer_wins :
    (∀ (es : List FileEntry) (p : String),
        lookupKey p (foldEntries es initState).fileData = lastLiveRecord p es)
    ∧ writeFiles (foldEntries [entryV1, entryDel, entryV2] initState).fileData
        emptyTarget pathFileTxt = some (writtenOf entryV2)
    ∧ writeFiles (foldEntries [entryV1, entryDel] initState).fileData
        emptyTarget pathFileTxt = none := by
  refine ⟨fun es p => ?_, ?_, ?_⟩
  · rw [lookupKey_foldEntries, lastLiveRecord]
    cases lastRec (recordsFor p es) <;> simp [initState, lookupKey]
  · decide
  · decide

/-! ### Membership lemmas for the table operations -/

theorem mem_eraseKey {α : Type} (kv : String × α) (k : String)
    (m : List (String × α)) :
    kv ∈ eraseKey k m ↔ kv ∈ m ∧ kv.1 ≠ k := by
  induction m with
  | nil => simp [eraseKey]
  | cons kv2 rest ih =>
    rw [eraseKey]
    by_cases h : kv2.1 = k
    · rw [if_pos h, ih]
      constructor
      · exact fun hp => ⟨List.mem_cons_of_mem _ hp.1, hp.2⟩
      · rintro ⟨hor, hne⟩
        rcases List.mem_cons.mp hor with heq | hm
        · exact absurd (by rw [heq]; exact h) hne
        · exact ⟨hm, hne⟩
    · rw [if_neg h]
      constructor
      · intro hm
        rcases List.mem_cons.mp hm with heq | hm2
        · refine ⟨by rw [heq]; exact List.mem_cons_self _ _, ?_⟩
          rw [heq]; exact h
        · obtain ⟨hm3, hne⟩ := ih.mp hm2
          exact ⟨List.mem_cons_of_mem _ hm3, hne⟩
      · rintro ⟨hor, hne⟩
        rcases List.mem_cons.mp hor with heq | hm
        · rw [heq]; exact List.mem_cons_self _ _
        · exact List.mem_cons_of_mem _ (ih.mpr ⟨hm, hne⟩)

theorem mem_insertKey {α : Type} (kv : String × α) (k : String) (v : α)
    (m : List (String × α)) :
    kv ∈ insertKey k v m ↔ (kv ∈ m ∧ kv.1 ≠ k) ∨ kv = (k, v) := by
  rw [insertKey]
  simp [List.mem_append, mem_eraseKey]

theorem mem_eraseStr (p k : String) (l : List String) :
    p ∈ eraseStr k l ↔ p ∈ l ∧ p ≠ k := by
  induction l with
  | nil => simp [eraseStr]
  | cons s rest ih =>
    rw [eraseStr]
    by_cases h : s = k
    · rw [if_pos h, ih]
      constructor
      · exact fun hp => ⟨List.mem_cons_of_mem _ hp.1, hp.2⟩
      · rintro ⟨hor, hne⟩
        rcases List.mem_cons.mp hor with heq | hm
        · exact absurd (by rw [heq]; exact h) hne
        · exact ⟨hm, hne⟩
    · rw [if_neg h]
      constructor
      · intro hm
        rcases List.mem_cons.mp hm with heq | hm2
        · refine ⟨by rw [heq]; exact List.mem_cons_self _ _, ?_⟩
          rw [heq]; exact h
        · obtain ⟨hm3, hne⟩ := ih.mp hm2
          exact ⟨List.mem_cons_of_mem _ hm3, hne⟩
      · rintro ⟨hor, hne⟩
        rcases List.mem_cons.mp hor with heq | hm
        · rw [heq]; exact List.mem_cons_self _ _
        · exact List.mem_cons_of_mem _ (ih.mpr ⟨hm, hne⟩)

theorem mem_insertStr (p k : String) (l : List String) :
    p ∈ insertStr k l ↔ (p ∈ l ∧ p ≠ k) ∨ p = k := by
  rw [insertStr]
  simp [List.mem_append, mem_eraseStr]

theorem lookupKey_some_mem {α : Type} (p : String) (v : α)
    (m : List (String × α)) (h : lookupKey p m = some v) : (p, v) ∈ m := by
  induction m with
  | nil => simp [lookupKey] at h
  | cons kv rest ih =>
    rw [lookupKey] at h
    by_cases hk : kv.1 = p
    · rw [if_pos hk] at h
      have : kv = (p, v) := by
        cases kv
        simp only [Option.some.injEq] at h
        simp_all
      rw [← this]
      exact List.mem_cons_self _ _
    · rw [if_neg hk] at h
      exact List.mem_cons_of_mem _ (ih h)

theorem lookupKey_none_forall {α : Type} (p : String) (m : List (String × α))
    (h : lookupKey p m = none) : ∀ kv ∈ m, kv.1 ≠ p := by
  induction m with
  | nil => simp
  | cons kv rest ih =>
    rw [lookupKey] at h
    by_cases hk : kv.1 = p
    · rw [if_pos hk] at h
      simp at h
    · rw [if_neg hk] at h
      intro kv2 hm
      rcases List.mem_cons.mp hm with heq | hm2
      · rw [heq]; exact hk
      · exact ih h kv2 hm2

/-! ### Shape lemmas for applyEntry -/

theorem applyEntry_deleted (s : RestoreState) (e : FileEntry)
    (h : e.deleted = true) :
    applyEntry s e =
      { fileData := eraseKey e.path s.fileData
        deletedFiles := insertStr e.path s.deletedFiles } := by
  rw [applyEntry, if_pos h]

theorem applyEntry_live (s : RestoreState) (e : FileEntry)
    (h : e.deleted = false) :
    applyEntry s e =
      { fileData := insertKey e.path e s.fileData
        deletedFiles := eraseStr e.path s.deletedFiles } := by
  rw [applyEntry, if_neg]
  rw [h]
  simp

/-! ### C10 invariant: no path is both live and tombstoned -/

theorem applyEntry_disjoint (s : RestoreState) (e : FileEntry)
    (h : ∀ q w, (q, w) ∈ s.fileData → q ∉ s.deletedFiles) :
    ∀ q w, (q, w) ∈ (applyEntry s e).fileData →
      q ∉ (applyEntry s e).deletedFiles := by
  intro q w hm hmem
  by_cases hdel : e.deleted
  · rw [applyEntry_deleted s e hdel] at hm hmem
    simp only at hm hmem
    rw [mem_eraseKey] at hm
    rw [mem_insertStr] at hmem
    rcases hmem with ⟨hq, hne⟩ | heq
    · exact h q w hm.1 hq
    · exact hm.2 heq
  · have hdel2 : e.deleted = false := by
      cases hb : e.deleted
      · rfl
      · exact absurd hb hdel
    rw [applyEntry_live s e hdel2] at hm hmem
    simp only at hm hmem
    rw [mem_insertKey] at hm
    rw [mem_eraseStr] at hmem
    rcases hm with ⟨hq, hne⟩ | heq
    · exact h q w hq hmem.1
    · have : q = e.path := by
        have := congrArg Prod.fst heq
        simpa using this
      exact hmem.2 this

theorem foldEntries_disjoint (es : List FileEntry) (s : RestoreState)
    (h : ∀ q w, (q, w) ∈ s.fileData → q ∉ s.deletedFiles) :
    ∀ q w, (q, w) ∈ (foldEntries es s).fileData →
      q ∉ (foldEntries es s).deletedFiles := by
  induction es generalizing s with
  | nil => exact h
  | cons e rest ih =>
    rw [foldEntries_cons]
    exact ih _ (applyEntry_disjoint s e h)

/-- C10: after folding any prefix of the journal's records, the live-record
table and the tombstone set have disjoint key sets: a path holding a live
record is never simultaneously tombstoned. -/
theorem restore_fold_tables_disjoint :
    ∀ (es : List FileEntry) (p : String) (e : FileEntry),
      (p, e) ∈ (foldEntries es initState).fileData →
      p ∉ (foldEntries es initState).deletedFiles := by
  intro es p e
  exact fun hm => foldEntries_disjoint es initState (by simp [initState]) p e hm

/-- Witness for C10 at a concrete journal: after a single file creation the
path is live and indeed not tombstoned. -/
theorem restore_fold_tables_disjoint_witness :
    (pathFileTxt, entryV1) ∈ (foldEntries [entryV1] initState).fileData ∧
      pathFileTxt ∉ (foldEntries [entryV1] initState).deletedFiles :=
  ⟨by decide, restore_fold_tables_disjoint [entryV1] pathFileTxt entryV1 (by decide)⟩

/-! ### The segment fold equals the fold of the decodable records -/

theorem foldEntries_append (l1 l2 : List FileEntry) (s : RestoreState) :
    foldEntries (l1 ++ l2) s = foldEntries l2 (foldEntries l1 s) := by
  simp [foldEntries, List.foldl_append]

theorem foldSegments_eq_foldEntries (segs : List (Option Chunk))
    (s : RestoreState) :
    foldSegments segs s = foldEntries (decodedEntries segs) s := by
  induction segs generalizing s with
  | nil => rfl
  | cons seg rest ih =>
    cases seg with
    | none =>
      have h : foldSegments (none :: rest) s = foldSegments rest s := rfl
      rw [h, ih]
      rfl
    | some c =>
      have h : foldSegments (some c :: rest) s =
          foldSegments rest (foldEntries c.entries s) := rfl
      rw [h, ih]
      have h2 : decodedEntries (some c :: rest) =
          c.entries ++ decodedEntries rest := rfl
      rw [h2, foldEntries_append]

/-! ### Invariants of the live table: keys are the records' paths, no
duplicates -/

theorem fold_fileData_key_eq_path (es : List FileEntry) (s : RestoreState)
    (h : ∀ kv ∈ s.fileData, kv.1 = kv.2.path) :
    ∀ kv ∈ (foldEntries es s).fileData, kv.1 = kv.2.path := by
  induction es generalizing s with
  | nil => exact h
  | cons e rest ih =>
    rw [foldEntries_cons]
    refine ih _ ?_
    intro kv hm
    by_cases hdel : e.deleted
    · rw [applyEntry_deleted s e hdel] at hm
      simp only at hm
      exact h kv (mem_eraseKey kv e.path s.fileData |>.mp hm).1
    · have hdel2 : e.deleted = false := by
        cases hb : e.deleted
        · rfl
        · exact absurd hb hdel
      rw [applyEntry_live s e hdel2] at hm
      simp only at hm
      rcases (mem_insertKey kv e.path e s.fileData).mp hm with ⟨hq, _⟩ | heq
      · exact h kv hq
      · rw [heq]

theorem map_fst_eraseKey_nodup {α : Type} (k : String) (m : List (String × α))
    (h : (m.map Prod.fst).Nodup) : ((eraseKey k m).map Prod.fst).Nodup := by
  induction m with
  | nil => simp [eraseKey]
  | cons kv rest ih =>
    rw [List.map_cons, List.nodup_cons] at h
    rw [eraseKey]
    by_cases hk : kv.1 = k
    · rw [if_pos hk]
      exact ih h.2
    · rw [if_neg hk, List.map_cons, List.nodup_cons]
      refine ⟨fun hm => ?_, ih h.2⟩
      rcases List.mem_map.mp hm with ⟨kv2, hmem, heq⟩
      have := (mem_eraseKey kv2 k rest).mp hmem
      exact h.1 (List.mem_map.mpr ⟨kv2, this.1, heq⟩)

theorem not_mem_map_fst_eraseKey {α : Type} (k : String)
    (m : List (String × α)) : k ∉ (eraseKey k m).map Prod.fst := by
  intro hm
  rcases List.mem_map.mp hm with ⟨kv, hmem, heq⟩
  exact ((mem_eraseKey kv k m).mp hmem).2 heq

theorem map_fst_insertKey_nodup {α : Type} (k : String) (v : α)
    (m : List (String × α)) (h : (m.map Prod.fst).Nodup) :
    ((insertKey k v m).map Prod.fst).Nodup := by
  rw [insertKey, List.map_append]
  rw [List.nodup_append]
  refine ⟨map_fst_eraseKey_nodup k m h, by simp, ?_⟩
  intro x hx hx2
  simp only [List.map_cons, List.map_nil, List.mem_singleton] at hx2
  rw [hx2] at hx
  exact not_mem_map_fst_eraseKey k m hx

theorem fold_fileData_nodup (es : List FileEntry) (s : RestoreState)
    (h : (s.fileData.map Prod.fst).Nodup) :
    ((foldEntries es s).fileData.map Prod.fst).Nodup := by
  induction es generalizing s with
  | nil => exact h
  | cons e rest ih =>
    rw [foldEntries_cons]
    refine ih _ ?_
    by_cases hdel : e.deleted
    · rw [applyEntry_deleted s e hdel]
      exact map_fst_eraseKey_nodup e.path s.fileData h
    · have hdel2 : e.deleted = false := by
        cases hb : e.deleted
        · rfl
        · exact absurd hb hdel
      rw [applyEntry_live s e hdel2]
      exact map_fst_insertKey_nodup e.path e s.fileData h

/-! ### Materialization lemmas -/

theorem writeFiles_cons (kv : String × FileEntry)
    (rest : List (String × FileEntry)) (target : String → Option WrittenFile) :
    writeFiles (kv :: rest) target =
      writeFiles rest
        (fun p => if kv.2.path = p then some (writtenOf kv.2) else target p) := by
  rfl

theorem writeFiles_frame (entries : List (String × FileEntry))
    (target : String → Option WrittenFile) (p : String)
    (h : ∀ kv ∈ entries, kv.2.path ≠ p) :
    writeFiles entries target p = target p := by
  induction entries generalizing target with
  | nil => rfl
  | cons kv rest ih =>
    rw [writeFiles_cons]
    rw [ih _ (fun kv2 hm => h kv2 (List.mem_cons_of_mem _ hm))]
    rw [if_neg (h kv (List.mem_cons_self _ _))]

theorem writeFiles_lookup (entries : List (String × FileEntry))
    (target : String → Option WrittenFile) (p : String) (e : FileEntry)
    (hkeys : ∀ kv ∈ entries, kv.1 = kv.2.path)
    (hnodup : (entries.map Prod.fst).Nodup)
    (h : lookupKey p entries = some e) :
    writeFiles entries target p = some (writtenOf e) := by
  induction entries generalizing target with
  | nil => simp [lookupKey] at h
  | cons kv rest ih =>
    rw [writeFiles_cons]
    rw [lookupKey] at h
    rw [List.map_cons, List.nodup_cons] at hnodup
    by_cases hk : kv.1 = p
    · rw [if_pos hk] at h
      have he : kv.2 = e := by
        simpa using h
      have hframe : ∀ kv2 ∈ rest, kv2.2.path ≠ p := by
        intro kv2 hm hpath
        have h1 : kv2.1 = kv2.2.path := hkeys kv2 (List.mem_cons_of_mem _ hm)
        have h2 : kv2.1 = p := h1.trans hpath
        exact hnodup.1 (by rw [← hk] at h2; exact h2 ▸ List.mem_map.mpr ⟨kv2, hm, rfl⟩)
      rw [writeFiles_frame rest _ p hframe]
      have hpath : kv.2.path = p := by
        rw [← hkeys kv (List.mem_cons_self _ _)]
        exact hk
      rw [if_pos hpath, he]
    · rw [if_neg hk] at h
      exact ih _ (fun kv2 hm => hkeys kv2 (List.mem_cons_of_mem _ hm)) hnodup.2 h

/-- C4: a journal with at least one decodable segment restores without error:
undecodable segments are skipped, the fold runs over exactly the records of
the decodable segments, and every path live in that fold is materialized with
its record's data. -/
theorem restore_skips_undecodable_segments :
    ∀ (segs : List (Option Chunk)) (target : String → Option WrittenFile),
      (∃ c, some c ∈ segs) →
      restoreRun segs target =
        .ok (writeFiles (foldEntries (decodedEntries segs) initState).fileData
          target) ∧
      ∀ p e,
        lookupKey p (foldEntries (decodedEntries segs) initState).fileData =
          some e →
        writeFiles (foldEntries (decodedEntries segs) initState).fileData
          target p = some (writtenOf e) := by
  intro segs target hex
  have hne : ¬ segs.isEmpty := by
    rcases hex with ⟨c, hc⟩
    cases segs with
    | nil => simp at hc
    | cons a rest => simp
  constructor
  · rw [restoreRun, if_neg hne, foldSegments_eq_foldEntries]
  · intro p e h
    exact writeFiles_lookup _ target p e
      (fold_fileData_key_eq_path _ initState (by simp [initState]))
      (fold_fileData_nodup _ initState (by simp [initState])) h

/-- Witness for C4: a journal holding one undecodable segment and one
well-formed segment restores without error, to the fold of the well-formed
segment alone. -/
theorem restore_skips_undecodable_segments_witness :
    restoreRun segsDemo emptyTarget =
      .ok (writeFiles (foldEntries (decodedEntries segsDemo) initState).fileData
        emptyTarget) :=
  (restore_skips_undecodable_segments segsDemo emptyTarget
    ⟨chunkDemo, by decide⟩).1

/-- C8: restore fails with the not-found error exactly when the journal lists
no segment files at all; with at least one segment file (decodable or not) no
not-found error is returned. -/
theorem restore_notFound_iff_no_segments :
    ∀ (segs : List (Option Chunk)) (target : String → Option WrittenFile),
      restoreRun segs target = .error .notFound ↔ segs = [] := by
  intro segs target
  cases segs with
  | nil => simp [restoreRun]
  | cons seg rest => simp [restoreRun]

/-- C9: restore is purely additive or overwriting: a path that is tombstoned
in the fold, or that never appears live, is left exactly as the target had it
— restore never deletes or modifies a file it does not materialize. -/
theorem restore_preserves_untouched_paths :
    ∀ (segs : List (Option Chunk)) (target : String → Option WrittenFile)
      (p : String),
      (p ∈ (foldSegments segs initState).deletedFiles ∨
        lookupKey p (foldSegments segs initState).fileData = none) →
      writeFiles (foldSegments segs initState).fileData target p = target p := by
  intro segs target p hyp
  have hnone : lookupKey p (foldSegments segs initState).fileData = none := by
    rcases hyp with htomb | hnone
    · cases hl : lookupKey p (foldSegments segs initState).fileData with
      | none => rfl
      | some e =>
        rw [foldSegments_eq_foldEntries] at hl htomb
        exact absurd htomb
          (restore_fold_tables_disjoint _ p e (lookupKey_some_mem p e _ hl))
    · exact hnone
  refine writeFiles_frame _ target p ?_
  intro kv hm hpath
  have h1 : kv.1 = kv.2.path := by
    rw [foldSegments_eq_foldEntries] at hm
    exact fold_fileData_key_eq_path _ initState (by simp [initState]) kv hm
  exact lookupKey_none_forall p _ hnone kv hm (h1.trans hpath)

/-- Witness for C9: a journal that creates and then tombstones `file.txt`
leaves a pre-existing `file.txt` at the target untouched. -/
theorem restore_preserves_untouched_paths_witness :
    pathFileTxt ∈ (foldSegments segsTombstoneDemo initState).deletedFiles ∧
      writeFiles (foldSegments segsTombstoneDemo initState).fileData
        targetWithOld pathFileTxt = targetWithOld pathFileTxt :=
  ⟨by decide,
    restore_preserves_untouched_paths segsTombstoneDemo targetWithOld pathFileTxt
      (Or.inl (by decide))⟩

/-! ### C3: greedy packing -/

theorem entriesSize_append_single (l : List FileEntry) (e : FileEntry) :
    entriesSize (l ++ [e]) = entriesSize l + entrySize e := by
  induction l with
  | nil => simp [entriesSize]
  | cons e2 rest ih => simp [entriesSize, ih]; omega

theorem entrySize_le_entriesSize (e : FileEntry) (l : List FileEntry)
    (h : e ∈ l) : entrySize e ≤ entriesSize l := by
  induction l with
  | nil => simp at h
  | cons e2 rest ih =>
    rcases List.mem_cons.mp h with heq | hm
    · rw [heq, entriesSize]
      omega
    · have := ih hm
      rw [entriesSize]
      omega

theorem packChunks_flatten (es : List FileEntry) :
    ∀ (cur : List FileEntry) (size : Nat),
      chunksEntries (packChunks es cur size) = cur ++ es := by
  induction es with
  | nil =>
    intro cur size
    rw [packChunks]
    by_cases h : cur = []
    · simp [h, chunksEntries]
    · simp [h, chunksEntries]
  | cons e rest ih =>
    intro cur size
    rw [packChunks]
    by_cases h : size + entrySize e > chunkSize ∧ cur ≠ []
    · rw [if_pos h]
      rw [chunksEntries, ih]
      simp
    · rw [if_neg h, ih]
      simp

theorem packChunks_no_empty_segment (es : List FileEntry) :
    ∀ (cur : List FileEntry) (size : Nat) (c : Chunk),
      c ∈ packChunks es cur size → c.entries ≠ [] := by
  induction es with
  | nil =>
    intro cur size c hc
    rw [packChunks] at hc
    by_cases h : cur = []
    · rw [if_pos h] at hc
      simp at hc
    · rw [if_neg h] at hc
      rcases List.mem_singleton.mp hc with heq
      rw [heq]
      exact h
  | cons e rest ih =>
    intro cur size c hc
    rw [packChunks] at hc
    by_cases h : size + entrySize e > chunkSize ∧ cur ≠ []
    · rw [if_pos h] at hc
      rcases List.mem_cons.mp hc with heq | hm
      · rw [heq]
        exact h.2
      · exact ih _ _ c hm
    · rw [if_neg h] at hc
      exact ih _ _ c hc

theorem packChunks_oversized_alone (es : List FileEntry) :
    ∀ (cur : List FileEntry) (size : Nat),
      size = entriesSize cur →
      (∀ e ∈ cur, chunkSize < entrySize e → cur = [e]) →
      ∀ c ∈ packChunks es cur size, ∀ e ∈ c.entries,
        chunkSize < entrySize e → c.entries = [e] := by
  induction es with
  | nil =>
    intro cur size hsize hP c hc e he hbig
    rw [packChunks] at hc
    by_cases h : cur = []
    · rw [if_pos h] at hc
      simp at hc
    · rw [if_neg h] at hc
      rcases List.mem_singleton.mp hc with heq
      rw [heq] at he ⊢
      exact hP e he hbig
  | cons e0 rest ih =>
    intro cur size hsize hP c hc e he hbig
    rw [packChunks] at hc
    by_cases h : size + entrySize e0 > chunkSize ∧ cur ≠ []
    · rw [if_pos h] at hc
      rcases List.mem_cons.mp hc with heq | hm
      · rw [heq] at he ⊢
        exact hP e he hbig
      · refine ih [e0] (entrySize e0) (by simp [entriesSize]) ?_ c hm e he hbig
        intro e2 he2 _
        rcases List.mem_singleton.mp he2 with he3
        rw [he3]
    · rw [if_neg h] at hc
      by_cases hcur : cur = []
      · refine ih (cur ++ [e0]) _ ?_ ?_ c hc e he hbig
        · rw [entriesSize_append_single, hsize]
        · intro e2 he2 _
          rw [hcur] at he2 ⊢
          simp at he2
          simp [he2]
      · have hle : size + entrySize e0 ≤ chunkSize := by
          by_contra hgt
          exact h ⟨by omega, hcur⟩
        refine ih (cur ++ [e0]) _ ?_ ?_ c hc e he hbig
        · rw [entriesSize_append_single, hsize]
        · intro e2 he2 hbig2
          exfalso
          rcases List.mem_append.mp he2 with hm2 | hm2
          · have := entrySize_le_entriesSize e2 cur hm2
            omega
          · rcases List.mem_singleton.mp hm2 with he3
            rw [he3] at hbig2
            omega

/-- C3: createBackup packs records greedily in input order: an empty record
list writes no segments; the concatenation of the written segments in
sequence order is exactly the input list; no written segment is empty; a
record whose accounted size exceeds the soft limit always occupies a segment
alone; and a single input record always lands in exactly one segment. -/
theorem createBackup_greedy_packing :
    createBackup [] = [] ∧
    (∀ es, chunksEntries (createBackup es) = es) ∧
    (∀ es c, c ∈ createBackup es → c.entries ≠ []) ∧
    (∀ es c e, c ∈ createBackup es → e ∈ c.entries → chunkSize < entrySize e →
      c.entries = [e]) ∧
    (∀ e, createBackup [e] = [{ entries := [e] }]) := by
  refine ⟨rfl, ?_, ?_, ?_, ?_⟩
  · intro es
    rw [createBackup, packChunks_flatten]
    simp
  · intro es c hc
    exact packChunks_no_empty_segment es [] 0 c hc
  · intro es c e hc he hbig
    exact packChunks_oversized_alone es [] 0 (by simp [entriesSize])
      (by simp) c hc e he hbig
  · intro e
    rw [createBackup, packChunks]
    rw [if_neg (by simp)]
    rw [packChunks]
    simp

/-- Witness for C3 at concrete inputs: an oversized record (5 MiB of content)
really exceeds the soft limit and occupies its segment alone, and the segment
written for a small single record is non-empty. -/
theorem createBackup_greedy_packing_witness :
    chunkSize < entrySize bigEntry ∧
    ({ entries := [bigEntry] } : Chunk).entries = [bigEntry] ∧
    ({ entries := [entryV1] } : Chunk).entries ≠ [] := by
  have hsize : chunkSize < entrySize bigEntry := by
    have h : bigEntry.content = List.replicate chunkSize 0 := rfl
    rw [entrySize, h, List.length_replicate]
    omega
  have h5 := createBackup_greedy_packing.2.2.2.2 bigEntry
  have hmem : ({ entries := [bigEntry] } : Chunk) ∈ createBackup [bigEntry] := by
    rw [h5]
    exact List.mem_cons_self _ _
  refine ⟨hsize, ?_, ?_⟩
  · exact createBackup_greedy_packing.2.2.2.1 [bigEntry] _ bigEntry hmem
      (by simp) hsize
  · exact createBackup_greedy_packing.2.2.1 [entryV1]
      ({ entries := [entryV1] } : Chunk) (by decide)

/-! ### C5 and C7: the differ -/

theorem lookupKey_isSome_of_mem {α : Type} (k : String) (v : α)
    (m : List (String × α)) (h : (k, v) ∈ m) : (lookupKey k m).isSome := by
  induction m with
  | nil => simp at h
  | cons kv rest ih =>
    rw [lookupKey]
    by_cases hk : kv.1 = k
    · simp [hk]
    · rw [if_neg hk]
      rcases List.mem_cons.mp h with heq | hm
      · exact absurd (congrArg Prod.fst heq).symm hk
      · exact ih hm

theorem walkFs_err (fs : List (String × Option FsFile))
    (snap : List (String × String))
    (h : ∃ p, (p, (none : Option FsFile)) ∈ fs) : walkFs snap fs = none := by
  induction fs with
  | nil =>
    rcases h with ⟨p, hp⟩
    simp at hp
  | cons x rest ih =>
    rcases h with ⟨p, hp⟩
    rcases List.mem_cons.mp hp with heq | hm
    · rw [← heq]
      rfl
    · cases x with
      | mk q of =>
        cases of with
        | none => rfl
        | some f =>
          have hih := ih ⟨p, hm⟩
          simp [walkFs, hih]

theorem walkFs_nochange (fs : List (String × Option FsFile))
    (snap : List (String × String))
    (h : ∀ x ∈ fs, ∃ f, x.2 = some f ∧ lookupKey x.1 snap = some f.hash) :
    walkFs snap fs = some (mapHash fs, []) := by
  induction fs with
  | nil => rfl
  | cons x rest ih =>
    obtain ⟨f, hf, hl⟩ := h x (List.mem_cons_self _ _)
    cases x with
    | mk q of =>
      simp only at hf hl
      rw [hf]
      have hrest := ih (fun y hy => h y (List.mem_cons_of_mem _ hy))
      simp [walkFs, hrest, hl, mapHash]

theorem walkFs_ok (fs : List (String × Option FsFile))
    (snap : List (String × String)) (h : ∀ x ∈ fs, x.2.isSome) :
    ∃ chg, walkFs snap fs = some (mapHash fs, chg) := by
  induction fs with
  | nil => exact ⟨[], rfl⟩
  | cons x rest ih =>
    obtain ⟨chg, hrest⟩ := ih (fun y hy => h y (List.mem_cons_of_mem _ hy))
    cases x with
    | mk q of =>
      cases of with
      | none =>
        have := h (q, none) (List.mem_cons_self _ _)
        simp at this
      | some f =>
        cases hl : lookupKey q snap with
        | none =>
          exact ⟨changeEntry q f :: chg, by simp [walkFs, hrest, hl, mapHash]⟩
        | some hh =>
          by_cases hb : hh = f.hash
          · exact ⟨chg, by simp [walkFs, hrest, hl, hb, mapHash]⟩
          · exact ⟨changeEntry q f :: chg,
              by simp [walkFs, hrest, hl, hb, mapHash]⟩

theorem lookupKey_mapHash (fs : List (String × Option FsFile)) (p : String)
    (f : FsFile) (hnd : (fs.map Prod.fst).Nodup) (hm : (p, some f) ∈ fs) :
    lookupKey p (mapHash fs) = some f.hash := by
  induction fs with
  | nil => simp at hm
  | cons x rest ih =>
    rw [List.map_cons, List.nodup_cons] at hnd
    rcases List.mem_cons.mp hm with heq | hmem
    · rw [← heq]
      simp [mapHash, lookupKey]
    · cases x with
      | mk q of =>
        have hq : q ≠ p := by
          intro hqp
          exact hnd.1
            (by rw [hqp]; exact List.mem_map.mpr ⟨(p, some f), hmem, rfl⟩)
        cases of with
        | none =>
          rw [show mapHash ((q, none) :: rest) = mapHash rest from rfl]
          exact ih hnd.2 hmem
        | some g =>
          rw [show mapHash ((q, some g) :: rest) = (q, g.hash) :: mapHash rest
            from rfl]
          rw [lookupKey, if_neg hq]
          exact ih hnd.2 hmem

/-- C5: running the differ twice on an unchanged, fully readable tree yields
an empty change list on the second run: after any successful run the snapshot
maps exactly the currently-present paths to their fingerprints, so the second
run flags nothing as changed and nothing as deleted. -/
theorem detectChanges_idempotent :
    ∀ (fs : List (String × Option FsFile)) (snap : List (String × String)),
      (fs.map Prod.fst).Nodup →
      (∀ x ∈ fs, x.2.isSome) →
      (detectChanges fs snap).2 = mapHash fs ∧
      (detectChanges fs (detectChanges fs snap).2).1 = some [] := by
  intro fs snap hnd hsome
  obtain ⟨chg, hwalk⟩ := walkFs_ok fs snap hsome
  have hsnap2 : (detectChanges fs snap).2 = mapHash fs := by
    simp [detectChanges, hwalk]
  refine ⟨hsnap2, ?_⟩
  rw [hsnap2]
  have hwalk2 : walkFs (mapHash fs) fs = some (mapHash fs, []) := by
    apply walkFs_nochange
    intro x hx
    have hs := hsome x hx
    cases x with
    | mk q of =>
      cases of with
      | none => simp at hs
      | some f => exact ⟨f, rfl, lookupKey_mapHash fs q f hnd hx⟩
  rw [detectChanges, hwalk2]
  simp only [List.nil_append]
  have hfil :
      (mapHash fs).filter (fun kv => (lookupKey kv.1 (mapHash fs)).isNone) = [] := by
    rw [List.filter_eq_nil_iff]
    intro kv hkv
    have h2 := lookupKey_isSome_of_mem kv.1 kv.2 (mapHash fs) hkv
    cases hlk : lookupKey kv.1 (mapHash fs) with
    | none => rw [hlk] at h2; simp at h2
    | some v => simp [hlk]
  rw [hfil]
  rfl

/-- Witness for C5 on a concrete one-file tree: the snapshot after the first
run is exactly the tree's hash table and the second run reports no changes. -/
theorem detectChanges_idempotent_witness :
    (detectChanges fsDemo []).2 = mapHash fsDemo ∧
      (detectChanges fsDemo (detectChanges fsDemo []).2).1 = some [] :=
  detectChanges_idempotent fsDemo [] (by decide) (by decide)

/-- C7: when the walk fails, the differ returns an error with no change
records and the snapshot is left exactly as it was: the snapshot mutation
happens only after the walk has fully succeeded. -/
theorem detectChanges_error_atomic :
    ∀ (fs : List (String × Option FsFile)) (snap : List (String × String)),
      (∃ p, (p, (none : Option FsFile)) ∈ fs) →
      detectChanges fs snap = (none, snap) := by
  intro fs snap h
  have hw := walkFs_err fs snap h
  simp [detectChanges, hw]

/-- Witness for C7: a tree whose single entry fails to read leaves the prior
snapshot untouched and produces no change list. -/
theorem detectChanges_error_atomic_witness :
    detectChanges fsErrDemo snapDemo = (none, snapDemo) :=
  detectChanges_error_atomic fsErrDemo snapDemo ⟨pathFileTxt, by decide⟩

/-! ### C6: the segment encoding round-trips exactly -/

theorem decodeNat_encodeNat (n : Nat) (r : List Nat) :
    decodeNat (encodeNat n ++ r) = some (n, r) := by
  induction n with
  | zero => rfl
  | succ k ih =>
    have h : encodeNat (k + 1) ++ r = 1 :: (encodeNat k ++ r) := by
      simp [encodeNat, List.replicate_succ]
    rw [h]
    have h2 : decodeNat (1 :: (encodeNat k ++ r)) =
        match decodeNat (encodeNat k ++ r) with
        | some (n, r2) => some (n + 1, r2)
        | none => none := rfl
    rw [h2, ih]

theorem decodeInt_encodeInt (i : Int) (r : List Nat) :
    decodeInt (encodeInt i ++ r) = some (i, r) := by
  cases i with
  | ofNat n => simp [encodeInt, decodeInt, decodeNat_encodeNat]
  | negSucc n => simp [encodeInt, decodeInt, decodeNat_encodeNat]

theorem decodeBool_encodeBool (b : Bool) (r : List Nat) :
    decodeBool (encodeBool b ++ r) = some (b, r) := by
  cases b <;> rfl

theorem decodeNats_encodeNats (l : List Nat) (r : List Nat) :
    decodeNats l.length (encodeNats l ++ r) = some (l, r) := by
  induction l with
  | nil => rfl
  | cons n rest ih =>
    have h : encodeNats (n :: rest) ++ r = encodeNat n ++ (encodeNats rest ++ r) := by
      simp [encodeNats]
    rw [List.length_cons, h]
    have h2 : decodeNats (rest.length + 1) (encodeNat n ++ (encodeNats rest ++ r)) =
        match decodeNat (encodeNat n ++ (encodeNats rest ++ r)) with
        | none => none
        | some (m, r2) =>
          match decodeNats rest.length r2 with
          | none => none
          | some (l2, r3) => some (m :: l2, r3) := rfl
    rw [h2, decodeNat_encodeNat]
    dsimp only
    rw [ih]

theorem decodeNatList_encodeNatList (l : List Nat) (r : List Nat) :
    decodeNatList (encodeNatList l ++ r) = some (l, r) := by
  rw [encodeNatList, List.append_assoc, decodeNatList, decodeNat_encodeNat]
  dsimp only
  rw [decodeNats_encodeNats]

theorem decodeString_encodeString (s : String) (r : List Nat) :
    decodeString (encodeString s ++ r) = some (s, r) := by
  have h : (s.data.map Char.toNat).map Char.ofNat = s.data := by
    rw [List.map_map]
    have h2 : (Char.ofNat ∘ Char.toNat) = id := by
      funext c
      exact Char.ofNat_toNat c
    rw [h2, List.map_id]
  rw [encodeString, decodeString, decodeNatList_encodeNatList]
  dsimp only
  rw [h]

theorem decodeEntry_encodeEntry (e : FileEntry) (r : List Nat) :
    decodeEntry (encodeEntry e ++ r) = some (e, r) := by
  rw [encodeEntry, decodeEntry]
  simp only [List.append_assoc]
  rw [decodeString_encodeString]
  dsimp only
  rw [decodeNat_encodeNat]
  dsimp only
  rw [decodeInt_encodeInt]
  dsimp only
  rw [decodeInt_encodeInt]
  dsimp only
  rw [decodeNatList_encodeNatList]
  dsimp only
  rw [decodeBool_encodeBool]

theorem decodeEntries_encodeEntries (l : List FileEntry) (r : List Nat) :
    decodeEntries l.length (encodeEntries l ++ r) = some (l, r) := by
  induction l with
  | nil => rfl
  | cons e rest ih =>
    have h : encodeEntries (e :: rest) ++ r =
        encodeEntry e ++ (encodeEntries rest ++ r) := by
      simp [encodeEntries]
    rw [List.length_cons, h]
    have h2 : decodeEntries (rest.length + 1)
          (encodeEntry e ++ (encodeEntries rest ++ r)) =
        match decodeEntry (encodeEntry e ++ (encodeEntries rest ++ r)) with
        | none => none
        | some (e2, r2) =>
          match decodeEntries rest.length r2 with
          | none => none
          | some (l2, r3) => some (e2 :: l2, r3) := rfl
    rw [h2, decodeEntry_encodeEntry]
    dsimp only
    rw [ih]

/-- C6: the segment encoding round-trips exactly: writing any chunk and
reading the produced bytes returns an equal chunk — same records in the same
order, with identical path, content bytes, permission bits, modification
timestamp, size and deleted flag. -/
theorem writeChunk_readChunk_roundtrip :
    ∀ c : Chunk, readChunkData (writeChunkData c) = some c := by
  intro c
  rw [writeChunkData, readChunkData, decodeNat_encodeNat]
  have h : decodeEntries c.entries.length (encodeEntries c.entries) =
      some (c.entries, []) := by
    have h2 := decodeEntries_encodeEntries c.entries []
    rw [List.append_nil] at h2
    exact h2
  dsimp only
  rw [h]

/-! ### C2: filename encoding and chronological order -/

theorem decimalDigits_lt_ten (n : Nat) : ∀ d ∈ decimalDigits n, d < 10 := by
  induction n using Nat.strong_induction_on with
  | _ n ih =>
    rw [decimalDigits]
    by_cases h : n < 10
    · rw [if_pos h]
      intro d hd
      simp at hd
      omega
    · rw [if_neg h]
      intro d hd
      rcases List.mem_append.mp hd with hm | hm
      · exact ih (n / 10) (Nat.div_lt_self (by omega) (by omega)) d hm
      · simp at hm
        omega

theorem digitsVal_append_single (ds : List Nat) (d : Nat) :
    digitsVal (ds ++ [d]) = 10 * digitsVal ds + d := by
  induction ds with
  | nil => simp [digitsVal]
  | cons d0 ds2 ih =>
    simp [digitsVal, ih, List.length_append, pow_succ]
    ring

theorem digitsVal_decimalDigits (n : Nat) : digitsVal (decimalDigits n) = n := by
  induction n using Nat.strong_induction_on with
  | _ n ih =>
    rw [decimalDigits]
    by_cases h : n < 10
    · rw [if_pos h]
      simp [digitsVal]
    · rw [if_neg h]
      rw [digitsVal_append_single,
        ih (n / 10) (Nat.div_lt_self (by omega) (by omega))]
      omega

theorem digitsVal_lt_pow (ds : List Nat) (h : ∀ d ∈ ds, d < 10) :
    digitsVal ds < 10 ^ ds.length := by
  induction ds with
  | nil => simp [digitsVal]
  | cons d ds2 ih =>
    have hd : d < 10 := h d (List.mem_cons_self _ _)
    have hih := ih (fun x hx => h x (List.mem_cons_of_mem _ hx))
    rw [digitsVal, List.length_cons]
    calc d * 10 ^ ds2.length + digitsVal ds2
        < d * 10 ^ ds2.length + 10 ^ ds2.length := by omega
      _ = (d + 1) * 10 ^ ds2.length := by ring
      _ ≤ 10 * 10 ^ ds2.length := Nat.mul_le_mul_right _ (by omega)
      _ = 10 ^ (ds2.length + 1) := by rw [pow_succ]; ring

theorem decimalDigits_length_le (k : Nat) :
    ∀ n, 1 ≤ k → n < 10 ^ k → (decimalDigits n).length ≤ k := by
  induction k with
  | zero => intro n hk; omega
  | succ k ih =>
    intro n _ hn
    rw [decimalDigits]
    by_cases h : n < 10
    · rw [if_pos h]
      simp
    · rw [if_neg h]
      rw [List.length_append]
      have hk1 : 1 ≤ k := by
        by_contra hk0
        have hk00 : k = 0 := by omega
        rw [hk00] at hn
        simp at hn
        omega
      have hdiv : n / 10 < 10 ^ k := by
        rw [Nat.div_lt_iff_lt_mul (by omega)]
        calc n < 10 ^ (k + 1) := hn
          _ = 10 ^ k * 10 := by rw [pow_succ]
      have := ih (n / 10) hk1 hdiv
      simp
      omega

theorem lexLt_cons (a b : Nat) (as bs : List Nat) :
    lexLt (a :: as) (b :: bs) =
      if a < b then true else if b < a then false else lexLt as bs := rfl

theorem lexLt_irrefl (xs : List Nat) : lexLt xs xs = false := by
  induction xs with
  | nil => rfl
  | cons a as ih =>
    rw [lexLt_cons]
    simp [ih]

theorem lexLt_append_congr (xs : List Nat) :
    ∀ (ys as bs : List Nat), xs.length = ys.length →
      lexLt (xs ++ as) (ys ++ bs) =
        if xs = ys then lexLt as bs else lexLt xs ys := by
  induction xs with
  | nil =>
    intro ys as bs hlen
    cases ys with
    | nil => simp
    | cons y ys2 => simp at hlen
  | cons x xs2 ih =>
    intro ys as bs hlen
    cases ys with
    | nil => simp at hlen
    | cons y ys2 =>
      have hlen2 : xs2.length = ys2.length := by simpa using hlen
      rw [List.cons_append, List.cons_append, lexLt_cons, lexLt_cons]
      by_cases hxy : x < y
      · have hne : ¬ (x :: xs2 = y :: ys2) := by
          intro hc
          injection hc with h1 h2
          omega
        rw [if_pos hxy, if_neg hne, if_pos hxy]
      · by_cases hyx : y < x
        · have hne : ¬ (x :: xs2 = y :: ys2) := by
            intro hc
            injection hc with h1 h2
            omega
          rw [if_neg hxy, if_pos hyx, if_neg hne, if_neg hxy, if_pos hyx]
        · have hxy2 : x = y := by omega
          subst hxy2
          rw [if_neg hxy, if_neg hyx, ih ys2 as bs hlen2, if_neg hxy, if_neg hyx]
          by_cases heq : xs2 = ys2
          · rw [if_pos heq, if_pos (by rw [heq])]
          · rw [if_neg heq,
              if_neg (fun hc => by injection hc with _ h2; exact heq h2)]

theorem lexLt_append_left (xs as bs : List Nat) :
    lexLt (xs ++ as) (xs ++ bs) = lexLt as bs := by
  rw [lexLt_append_congr xs xs as bs rfl, if_pos rfl]

theorem lexLt_iff_digitsVal_lt (ds : List Nat) :
    ∀ es, ds.length = es.length → (∀ d ∈ ds, d < 10) → (∀ d ∈ es, d < 10) →
      (lexLt ds es = true ↔ digitsVal ds < digitsVal es) := by
  induction ds with
  | nil =>
    intro es hlen _ _
    cases es with
    | nil => simp [lexLt, digitsVal]
    | cons e es2 => simp at hlen
  | cons d ds2 ih =>
    intro es hlen hd he
    cases es with
    | nil => simp at hlen
    | cons e es2 =>
      have hlen2 : ds2.length = es2.length := by simpa using hlen
      have hd1 : d < 10 := hd d (List.mem_cons_self _ _)
      have he1 : e < 10 := he e (List.mem_cons_self _ _)
      have hdds : ∀ x ∈ ds2, x < 10 := fun x hx => hd x (List.mem_cons_of_mem _ hx)
      have hees : ∀ x ∈ es2, x < 10 := fun x hx => he x (List.mem_cons_of_mem _ hx)
      have hv1 : digitsVal ds2 < 10 ^ ds2.length := digitsVal_lt_pow ds2 hdds
      have hv2 : digitsVal es2 < 10 ^ es2.length := digitsVal_lt_pow es2 hees
      rw [lexLt_cons, digitsVal, digitsVal, ← hlen2]
      rw [← hlen2] at hv2
      by_cases hde : d < e
      · rw [if_pos hde]
        constructor
        · intro _
          calc d * 10 ^ ds2.length + digitsVal ds2
              < d * 10 ^ ds2.length + 10 ^ ds2.length := by omega
            _ = (d + 1) * 10 ^ ds2.length := by ring
            _ ≤ e * 10 ^ ds2.length := Nat.mul_le_mul_right _ (by omega)
            _ ≤ e * 10 ^ ds2.length + digitsVal es2 := Nat.le_add_right _ _
        · intro _
          rfl
      · by_cases hed : e < d
        · rw [if_neg hde, if_pos hed]
          constructor
          · intro hcontra
            simp at hcontra
          · intro hlt
            exfalso
            have hgt : e * 10 ^ ds2.length + digitsVal es2 <
                d * 10 ^ ds2.length + digitsVal ds2 := by
              calc e * 10 ^ ds2.length + digitsVal es2
                  < e * 10 ^ ds2.length + 10 ^ ds2.length := by omega
                _ = (e + 1) * 10 ^ ds2.length := by ring
                _ ≤ d * 10 ^ ds2.length := Nat.mul_le_mul_right _ (by omega)
                _ ≤ d * 10 ^ ds2.length + digitsVal ds2 := Nat.le_add_right _ _
            omega
        · have hde2 : d = e := by omega
          subst hde2
          rw [if_neg hde, if_neg hed, ih es2 hlen2 hdds hees]
          omega

theorem lexLt_map_add (xs : List Nat) :
    ∀ ys, lexLt (xs.map (fun d => 48 + d)) (ys.map (fun d => 48 + d)) =
      lexLt xs ys := by
  induction xs with
  | nil =>
    intro ys
    cases ys <;> rfl
  | cons x xs2 ih =>
    intro ys
    cases ys with
    | nil => rfl
    | cons y ys2 =>
      rw [List.map_cons, List.map_cons, lexLt_cons, lexLt_cons, ih ys2]
      by_cases h1 : x < y
      · rw [if_pos h1, if_pos (by omega : 48 + x < 48 + y)]
      · by_cases h2 : y < x
        · rw [if_neg (by omega : ¬ 48 + x < 48 + y),
            if_pos (by omega : 48 + y < 48 + x), if_neg h1, if_pos h2]
        · rw [if_neg (by omega : ¬ 48 + x < 48 + y),
            if_neg (by omega : ¬ 48 + y < 48 + x), if_neg h1, if_neg h2]

theorem digitsVal_replicate_zero (m : Nat) (ds : List Nat) :
    digitsVal (List.replicate m 0 ++ ds) = digitsVal ds := by
  induction m with
  | zero => rfl
  | succ k ih =>
    rw [List.replicate_succ, List.cons_append, digitsVal, ih]
    simp

theorem pad3Digits_val (n : Nat) : digitsVal (pad3Digits n) = n := by
  rw [pad3Digits, digitsVal_replicate_zero, digitsVal_decimalDigits]

theorem pad3Digits_length (n : Nat) (h : n < 1000) :
    (pad3Digits n).length = 3 := by
  have hle : (decimalDigits n).length ≤ 3 := by
    refine decimalDigits_length_le 3 n (by omega) ?_
    norm_num
    omega
  rw [pad3Digits, List.length_append, List.length_replicate]
  omega

theorem pad3Digits_lt_ten (n : Nat) : ∀ d ∈ pad3Digits n, d < 10 := by
  intro d hd
  rw [pad3Digits] at hd
  rcases List.mem_append.mp hd with hm | hm
  · have := List.eq_of_mem_replicate hm
    omega
  · exact decimalDigits_lt_ten n d hm

/-- C2 counterexample: the claim that lexicographic filename order always
equals (timestamp, sequence) order fails at timestamps of different decimal
width: segment (timestamp 9, seq 0) is chronologically before (timestamp 10,
seq 0), yet its filename `chunk_9_000.dat` does not sort lexicographically
before `chunk_10_000.dat` (the byte for `9` exceeds the byte for `1`). -/
theorem chunkFilename_order_counterexample :
    chronoLt 9 0 10 0 ∧ lexLt (chunkFilename 9 0) (chunkFilename 10 0) = false := by
  constructor
  · decide
  · have h9 : decimalDigits 9 = [9] := by simp [decimalDigits]
    have h10 : decimalDigits 10 = [1, 0] := by simp [decimalDigits]
    have h0 : decimalDigits 0 = [0] := by simp [decimalDigits]
    have hp0 : pad3Digits 0 = [0, 0, 0] := by
      rw [pad3Digits, h0]
      rfl
    rw [chunkFilename, chunkFilename, h9, h10, hp0]
    rfl

/-- C2 (amended): for segment filenames whose timestamps have equal decimal
digit width and whose sequence numbers are below 1000, byte-wise lexicographic
filename order coincides exactly with (timestamp, sequence) order; the
unrestricted claim is false (see the counterexample with timestamps 9 and
10). -/
theorem chunkFilename_lexLt_iff_chronoLt (t1 s1 t2 s2 : Nat)
    (ht : (decimalDigits t1).length = (decimalDigits t2).length)
    (hs1 : s1 < 1000) (hs2 : s2 < 1000) :
    (lexLt (chunkFilename t1 s1) (chunkFilename t2 s2) = true ↔
      chronoLt t1 s1 t2 s2) := by
  have hinj : Function.Injective (fun d : Nat => 48 + d) := by
    intro a b h
    dsimp at h
    omega
  have hlenT : ((decimalDigits t1).map (fun d => 48 + d)).length =
      ((decimalDigits t2).map (fun d => 48 + d)).length := by
    simp [ht]
  have hlenS : ((pad3Digits s1).map (fun d => 48 + d)).length =
      ((pad3Digits s2).map (fun d => 48 + d)).length := by
    simp [pad3Digits_length s1 hs1, pad3Digits_length s2 hs2]
  rw [chunkFilename, chunkFilename]
  simp only [List.append_assoc]
  rw [lexLt_append_left]
  rw [lexLt_append_congr _ _ _ _ hlenT]
  by_cases hT : (decimalDigits t1).map (fun d => 48 + d) =
      (decimalDigits t2).map (fun d => 48 + d)
  · have hdd : decimalDigits t1 = decimalDigits t2 :=
      (List.map_injective_iff.mpr hinj) hT
    have ht12 : t1 = t2 := by
      have hv := congrArg digitsVal hdd
      rwa [digitsVal_decimalDigits, digitsVal_decimalDigits] at hv
    rw [if_pos hT, lexLt_append_left]
    rw [lexLt_append_congr _ _ _ _ hlenS]
    by_cases hS : (pad3Digits s1).map (fun d => 48 + d) =
        (pad3Digits s2).map (fun d => 48 + d)
    · have hpp : pad3Digits s1 = pad3Digits s2 :=
        (List.map_injective_iff.mpr hinj) hS
      have hs12 : s1 = s2 := by
        have hv := congrArg digitsVal hpp
        rwa [pad3Digits_val, pad3Digits_val] at hv
      rw [if_pos hS, lexLt_irrefl]
      unfold chronoLt
      constructor
      · intro hc
        simp at hc
      · intro hor
        rcases hor with h | ⟨_, h2⟩
        · omega
        · omega
    · rw [if_neg hS, lexLt_map_add]
      rw [lexLt_iff_digitsVal_lt _ _
        (by rw [pad3Digits_length s1 hs1, pad3Digits_length s2 hs2])
        (pad3Digits_lt_ten s1) (pad3Digits_lt_ten s2)]
      rw [pad3Digits_val, pad3Digits_val]
      unfold chronoLt
      constructor
      · intro h
        exact Or.inr ⟨ht12, h⟩
      · intro hor
        rcases hor with h | ⟨_, h2⟩
        · omega
        · exact h2
  · have hne : t1 ≠ t2 := by
      intro hc
      exact hT (by rw [hc])
    rw [if_neg hT, lexLt_map_add]
    rw [lexLt_iff_digitsVal_lt _ _ ht (decimalDigits_lt_ten t1)
      (decimalDigits_lt_ten t2)]
    rw [digitsVal_decimalDigits, digitsVal_decimalDigits]
    unfold chronoLt
    constructor
    · exact Or.inl
    · intro hor
      rcases hor with h | ⟨heq, _⟩
      · exact h
      · exact absurd heq hne

/-- Witness for the amended C2 at concrete equal-width timestamps 5 and 6 and
sequence numbers 1 and 2. -/
theorem chunkFilename_lexLt_iff_chronoLt_witness :
    (decimalDigits 5).length = (decimalDigits 6).length ∧ 1 < 1000 ∧ 2 < 1000 ∧
      (lexLt (chunkFilename 5 1) (chunkFilename 6 2) = true ↔
        chronoLt 5 1 6 2) := by
  have hlen : (decimalDigits 5).length = (decimalDigits 6).length := by
    simp [decimalDigits]
  exact ⟨hlen, by omega, by omega,
    chunkFilename_lexLt_iff_chronoLt 5 1 6 2 hlen (by omega) (by omega)⟩
